import Mathlib

/-
Verification of the crimp-project: chordless-cycle enumeration (triangles,
squares), cycle-membership counting, the non-cyclic-degree correction, the
CRimp score, and the baseline Cycle Ratio engine.

Graphs are embedded as finite node lists plus edge lists over natural-number
identifiers; adjacency is membership of either orientation in the edge list.
Python dictionaries with `.get(key, 0)` are embedded as total functions with
default value 0; Python floats (which here only ever hold sums of small
integer ratios) are embedded as rationals.
-/

namespace CrimpProject

/-- Finite graph: a directedness flag, a node list and an edge list.
Mirrors the networkx graph object as consumed by the repository. -/
structure Graph where
  directed : Bool
  nodes : List Nat
  edges : List (Nat × Nat)
deriving Repr

/-- Edge query: either orientation of the pair occurs in the edge list.
Mirrors `G.has_edge(u, v)` on an undirected networkx graph. -/
def Graph.hasEdge (G : Graph) (u v : Nat) : Bool :=
  G.edges.contains (u, v) || G.edges.contains (v, u)

/-- Neighbor list of a node: all nodes joined to it by an edge.
Mirrors `G.neighbors(u)`. -/
def Graph.neighbors (G : Graph) (u : Nat) : List Nat :=
  G.nodes.filter (fun v => G.hasEdge u v)

/-- Degree of a node, the number of its neighbors (simple graph).
Mirrors `G.degree(u)`. -/
def Graph.degree (G : Graph) (u : Nat) : Nat :=
  (G.neighbors u).length

/-- Well-formedness of the embedding: node identifiers are listed once, and
every edge joins two distinct listed nodes (simple graph, no self-loops). -/
def Graph.WF (G : Graph) : Prop :=
  G.nodes.Nodup ∧ ∀ e ∈ G.edges, e.1 ∈ G.nodes ∧ e.2 ∈ G.nodes ∧ e.1 ≠ e.2

instance (G : Graph) : Decidable G.WF :=
  inferInstanceAs (Decidable (_ ∧ ∀ e ∈ G.edges, _ ∈ G.nodes ∧ _ ∈ G.nodes ∧ _ ≠ _))

/-- Normalized unordered pair key. Mirrors `_pair` in `crimp.py`. -/
def _pair (u v : Nat) : Nat × Nat :=
  if u < v then (u, v) else (v, u)

/-- Ascending sort of a node list. Mirrors Python `sorted`. -/
def sortNodes (l : List Nat) : List Nat :=
  List.insertionSort (· ≤ ·) l

/-- Canonical form of a node set given as a list: duplicates removed, then
sorted ascending. Mirrors a Python `frozenset` in its canonical
`tuple(sorted(s))` presentation. -/
def canon (l : List Nat) : List Nat :=
  sortNodes l.dedup

/-- All ordered position pairs (earlier element first) of a list.
Mirrors `itertools.combinations(l, 2)`. -/
def pairsOf : List Nat → List (Nat × Nat)
  | [] => []
  | x :: xs => xs.map (fun y => (x, y)) ++ pairsOf xs

/-- Lexicographic comparison of node lists, mirroring Python tuple order
on `tuple(sorted(s))` keys. -/
def lexLe : List Nat → List Nat → Bool
  | [], _ => true
  | _ :: _, [] => false
  | a :: as, b :: bs => if a < b then true else if b < a then false else lexLe as bs

/-- Sort of a list of canonical cycles by lexicographic key order.
Mirrors `sorted(set_of_frozensets, key=lambda s: tuple(sorted(s)))`. -/
def sortCycles (L : List (List Nat)) : List (List Nat) :=
  List.insertionSort (fun a b => lexLe a b = true) L

/-- Common-neighbor list of two nodes. Mirrors the neighbor-set
intersections `Nu & Nv` and `Nu & set(G.neighbors(v))` of the source. -/
def commonNeighbors (G : Graph) (u v : Nat) : List Nat :=
  (G.neighbors u).filter (fun w => (G.neighbors v).contains w)

/-- Raw triangle discoveries, before set deduplication. Mirrors the
accumulation into the `triangles` set of `find_chordless_triangles`:
for each node u, each neighbor v with v > u, and each common neighbor w
with w > v, record the set {u, v, w}. -/
def trianglesRaw (G : Graph) : List (List Nat) :=
  G.nodes.flatMap (fun u =>
    (G.neighbors u).flatMap (fun v =>
      if v ≤ u then []
      else (commonNeighbors G u v).flatMap (fun w =>
        if w ≤ v then [] else [canon [u, v, w]])))

/-- Chordless triangle enumeration. Mirrors `find_chordless_triangles`:
the deduplicated discoveries, sorted by canonical key. -/
def find_chordless_triangles (G : Graph) : List (List Nat) :=
  sortCycles (trianglesRaw G).dedup

/-- Raw square discoveries, before set deduplication. Mirrors the
accumulation into the `squares` set of `find_chordless_4cycles`:
for each unordered pair (u, v) of nodes with no edge between them, and each
pair (a, b) of common neighbors (drawn in sorted order) with no edge between
them, record the set {u, v, a, b}. -/
def squaresRaw (G : Graph) : List (List Nat) :=
  (pairsOf G.nodes).flatMap (fun q =>
    if G.hasEdge q.1 q.2 then []
    else if (commonNeighbors G q.1 q.2).length < 2 then []
    else (pairsOf (sortNodes (commonNeighbors G q.1 q.2))).flatMap (fun q2 =>
      if q2.1 = q2.2 then []
      else if G.hasEdge q2.1 q2.2 then []
      else [canon [q.1, q.2, q2.1, q2.2]]))

/-- Chordless square enumeration: the deduplicated discoveries, sorted by
canonical key. Mirrors the return of `find_chordless_4cycles`. -/
def find_chordless_4cycles (G : Graph) : List (List Nat) :=
  sortCycles (squaresRaw G).dedup

/-- Per-node cycle-membership count c_ii. Mirrors the first accumulation of
`build_cycle_counts`: for each cycle, each listed member gets one increment. -/
def build_cycle_counts_cii (cycles : List (List Nat)) (i : Nat) : Nat :=
  (cycles.map (fun c => (sortNodes c).count i)).sum

/-- Per-pair cycle co-membership count c_ij. Mirrors the second accumulation
of `build_cycle_counts`: for each cycle, each unordered member pair (taken
from the sorted member list and normalized with `_pair`) gets one increment. -/
def build_cycle_counts_cij (cycles : List (List Nat)) (p : Nat × Nat) : Nat :=
  (cycles.map (fun c =>
    ((pairsOf (sortNodes c)).map (fun q => _pair q.1 q.2)).count p)).sum

/-- Non-cyclic degree k_t. Mirrors `compute_k_t`: degree minus the number of
neighbors sharing at least one cycle with the node. -/
def compute_k_t (G : Graph) (c_ij : Nat × Nat → Nat) (i : Nat) : Nat :=
  G.degree i - ((G.neighbors i).filter (fun j => 0 < c_ij (_pair i j))).length

/-- CRimp score of one node. Mirrors `compute_crimp_scores`: if the node is
in no cycle the score is its k_t; otherwise it is an optional self term of 1,
plus, over its neighbors j, c_ij / c_jj whenever c_ij is positive and c_jj is
positive, plus k_t. -/
def compute_crimp_scores (G : Graph) (c_ii : Nat → Nat) (c_ij : Nat × Nat → Nat)
    (k_t : Nat → Nat) (include_self : Bool) (i : Nat) : ℚ :=
  if c_ii i = 0 then (k_t i : ℚ)
  else
    let s0 : ℚ := if include_self then 1 else 0
    let s := s0 + ((G.neighbors i).map (fun j =>
      let cij := c_ij (_pair i j)
      if cij ≤ 0 then 0
      else
        let cjj := c_ii j
        if 0 < cjj then (cij : ℚ) / (cjj : ℚ) else 0)).sum
    s + (k_t i : ℚ)

/-- Result aggregate of the CRimp pipeline. Mirrors `CRimpResult`. -/
structure CRimpResult where
  c_ii : Nat → Nat
  c_ij : Nat × Nat → Nat
  k_t : Nat → Nat
  r_imp : Nat → ℚ
  cycles3 : List (List Nat)
  cycles4 : List (List Nat)

/-- End-to-end CRimp pipeline. Mirrors `crimp`: reject directed input with a
configuration error before any enumeration or scoring; otherwise enumerate
triangles and squares, build counts, compute k_t, and score with the self
term included. -/
def crimp (G : Graph) : Except String CRimpResult :=
  if G.directed then .error "This implementation expects an undirected graph."
  else
    let cycles3 := find_chordless_triangles G
    let cycles4 := find_chordless_4cycles G
    let all_cycles := cycles3 ++ cycles4
    let c_ii := build_cycle_counts_cii all_cycles
    let c_ij := build_cycle_counts_cij all_cycles
    let k_t := compute_k_t G c_ij
    let r_imp := compute_crimp_scores G c_ii c_ij k_t true
    .ok ⟨c_ii, c_ij, k_t, r_imp, cycles3, cycles4⟩

/-- Removal of a node: drop it from the node list and drop every edge
touching it. Mirrors `G_temp = self.graph.copy(); G_temp.remove_node(node)`. -/
def removeNode (G : Graph) (v : Nat) : Graph :=
  { directed := G.directed
    nodes := G.nodes.filter (fun n => decide (n ≠ v))
    edges := G.edges.filter (fun e => decide (e.1 ≠ v ∧ e.2 ≠ v)) }

/-- Modelled from the spec: the Graph Model's "all shortest paths between two
nodes" collaborator (supplied externally, section 6 of the spec; the source
calls `networkx.all_shortest_paths`, which is not part of this repository).
This auxiliary enumerates every simple path from `cur` to `dst` that avoids
the `visited` list, with enough fuel to cover all simple paths. -/
def simplePathsAux (G : Graph) (dst : Nat) : Nat → Nat → List Nat → List (List Nat)
  | 0, _, _ => []
  | fuel + 1, cur, visited =>
    if cur = dst then [[cur]]
    else (G.neighbors cur).flatMap (fun n =>
      if (cur :: visited).contains n then []
      else (simplePathsAux G dst fuel n (cur :: visited)).map (fun p => cur :: p))

/-- Modelled from the spec: the collaborator must return every path of
minimum length between the two nodes, and an empty result stands for the
"no path" report (the source skips the pair in that case). -/
def allShortestPaths (G : Graph) (u w : Nat) : List (List Nat) :=
  let ps := simplePathsAux G w (G.nodes.length + 1) u []
  let minLen := (ps.map List.length).foldl min (G.nodes.length + 2)
  ps.filter (fun p => p.length = minLen)

/-- Cycles recorded while processing one node of the Cycle Ratio engine's
discovery loop. Mirrors the body of the outer loop of
`CycleRatioEngine.run`: nodes with fewer than two neighbors are skipped;
for each unordered pair (u, w) of neighbors, an edge u-w records the sorted
triangle, otherwise every shortest u-w path in the graph with the node
removed records a sorted cycle. -/
def perNodeCycles (G : Graph) (v : Nat) : List (List Nat) :=
  if (G.neighbors v).length < 2 then []
  else
    (pairsOf (G.neighbors v)).flatMap (fun q =>
      if G.hasEdge q.1 q.2 then [sortNodes [v, q.1, q.2]]
      else (allShortestPaths (removeNode G v) q.1 q.2).map
        (fun p => sortNodes (v :: p)))

/-- Mutable state of the engine object: the graph it holds and the set of
recorded cycles, the set kept as a duplicate-free list. Mirrors the
`self.graph` / `self.cycles` fields of `CycleRatioEngine`. -/
structure EngineState where
  graph : Graph
  cycles : List (List Nat)

/-- Set insertion into the recorded-cycle accumulator.
Mirrors `self.cycles.add(...)`. -/
def addCycle (acc : List (List Nat)) (c : List Nat) : List (List Nat) :=
  if acc.contains c then acc else acc ++ [c]

/-- One iteration of the discovery loop: record the cycles found through one
node, reading the graph held in the state. The graph field is carried over
unchanged (the source removes the node only from a fresh copy). -/
def discoveryStep (s : EngineState) (v : Nat) : EngineState :=
  { graph := s.graph
    cycles := (perNodeCycles s.graph v).foldl addCycle s.cycles }

/-- Full discovery phase of `CycleRatioEngine.run`: fold the per-node
iteration over the node list, starting from the engine's initial state. -/
def runDiscovery (G : Graph) : EngineState :=
  G.nodes.foldl discoveryStep { graph := G, cycles := [] }

/-- Recorded (deduplicated) cycles after the discovery phase. -/
def recordedCycles (G : Graph) : List (List Nat) :=
  (runDiscovery G).cycles

/-- Per-node list of recorded cycles containing the node, one copy per
occurrence of the node in the cycle. Mirrors the `cycle_map` accumulation
`for cyc in self.cycles: for n in cyc: cycle_map[n].append(cyc)`. -/
def cycle_map (cycles : List (List Nat)) (i : Nat) : List (List Nat) :=
  cycles.flatMap (fun c => (c.filter (fun n => n = i)).map (fun _ => c))

/-- Shared-cycle tally. Mirrors the `shared_counts` accumulation:
for each cycle through i, each listed member gets one increment. -/
def shared_counts (cycles : List (List Nat)) (i j : Nat) : Nat :=
  ((cycle_map cycles i).map (fun c => c.count j)).sum

/-- Key list of the `shared_counts` dictionary: every node occurring in some
cycle through i, listed once. -/
def sharedKeys (cycles : List (List Nat)) (i : Nat) : List Nat :=
  ((cycle_map cycles i).flatMap id).dedup

/-- Cycle Ratio score of one node from a recorded cycle list. Mirrors the
scoring phase of `CycleRatioEngine.run`: zero when the node is in no cycle,
otherwise the sum over the shared-count keys j (skipping j = i) of
shared[j] / c_jj whenever c_jj is positive. -/
def cycleRatioScore (cycles : List (List Nat)) (i : Nat) : ℚ :=
  if (cycle_map cycles i).length = 0 then 0
  else ((sharedKeys cycles i).map (fun j =>
    if j = i then 0
    else
      let cjj := (cycle_map cycles j).length
      if 0 < cjj then (shared_counts cycles i j : ℚ) / (cjj : ℚ) else 0)).sum

/-- End-to-end baseline score. Mirrors `rank_cycle_ratio_base`:
run discovery, then score each node against the recorded cycles. -/
def rank_cycle_ratio_base (G : Graph) (i : Nat) : ℚ :=
  cycleRatioScore (recordedCycles G) i

/-- Follows the spec's words (section 4.4): if `c_ii[i] == 0` the score is
exactly `k_t[i]`; otherwise it is 1 (the included self term), plus, for
every neighbor j with `c_ij[(i,j)] > 0` and `c_ii[j] > 0`, the ratio
`c_ij[(i,j)] / c_ii[j]`, plus `k_t[i]`. Stated for comparison with
`compute_crimp_scores`. -/
def crimp_score_spec (G : Graph) (c_ii : Nat → Nat) (c_ij : Nat × Nat → Nat)
    (k_t : Nat → Nat) (i : Nat) : ℚ :=
  if c_ii i = 0 then (k_t i : ℚ)
  else
    1 + (((G.neighbors i).filter (fun j =>
        decide (0 < c_ij (_pair i j)) && decide (0 < c_ii j))).map
      (fun j => (c_ij (_pair i j) : ℚ) / (c_ii j : ℚ))).sum + (k_t i : ℚ)

/-- Recorded cycles containing a given node. -/
def cyclesWith (cycles : List (List Nat)) (i : Nat) : List (List Nat) :=
  cycles.filter (fun c => c.contains i)

/-- Follows the claim's words for the Cycle Ratio score: if the number of
distinct recorded cycles containing i is zero the score is 0; otherwise it
is the sum, over every node j distinct from i co-occurring with i in at
least one recorded cycle and whose own cycle count is positive, of the
number of recorded cycles containing both i and j divided by the number of
recorded cycles containing j. Stated for comparison with
`cycleRatioScore`. -/
def cycleRatioScoreSpec (cycles : List (List Nat)) (i : Nat) : ℚ :=
  if (cyclesWith cycles i).length = 0 then 0
  else ((((cyclesWith cycles i).flatMap id).dedup.filter (fun j =>
      decide (j ≠ i) && decide (0 < (cyclesWith cycles j).length))).map
    (fun j => (((cyclesWith cycles i).filter (fun c => c.contains j)).length : ℚ)
      / ((cyclesWith cycles j).length : ℚ))).sum

/-! ### Order facts about the lexicographic key comparison -/

theorem lexLe_total (a : List Nat) : ∀ b, lexLe a b = true ∨ lexLe b a = true := by
  induction a with
  | nil => intro b; left; rfl
  | cons x xs ih =>
    intro b
    cases b with
    | nil => right; rfl
    | cons y ys =>
      unfold lexLe
      rcases Nat.lt_trichotomy x y with h | h | h
      · left; simp [h]
      · subst h
        simpa [Nat.lt_irrefl] using ih ys
      · right; simp [h, Nat.lt_asymm h]

theorem lexLe_trans (a : List Nat) :
    ∀ b c, lexLe a b = true → lexLe b c = true → lexLe a c = true := by
  induction a with
  | nil => intro b c _ _; rfl
  | cons x xs ih =>
    intro b c hab hbc
    cases b with
    | nil => simp [lexLe] at hab
    | cons y ys =>
      cases c with
      | nil => simp [lexLe] at hbc
      | cons z zs =>
        unfold lexLe at hab hbc ⊢
        rcases Nat.lt_trichotomy x y with h1 | h1 | h1
        · rcases Nat.lt_trichotomy y z with h2 | h2 | h2 <;>
            simp_all <;> omega
        · subst h1
          rcases Nat.lt_trichotomy x z with h2 | h2 | h2
          · simp [h2]
          · subst h2
            simp only [Nat.lt_irrefl, if_false] at hab hbc ⊢
            exact ih ys zs hab hbc
          · simp [Nat.lt_asymm h2, h2] at hbc
        · simp [Nat.lt_asymm h1, h1] at hab

theorem lexLe_antisymm (a : List Nat) :
    ∀ b, lexLe a b = true → lexLe b a = true → a = b := by
  induction a with
  | nil =>
    intro b _ hba
    cases b with
    | nil => rfl
    | cons y ys => simp [lexLe] at hba
  | cons x xs ih =>
    intro b hab hba
    cases b with
    | nil => simp [lexLe] at hab
    | cons y ys =>
      unfold lexLe at hab hba
      rcases Nat.lt_trichotomy x y with h | h | h
      · simp [Nat.lt_asymm h, h] at hba
      · subst h
        simp only [Nat.lt_irrefl, if_false] at hab hba
        rw [ih ys hab hba]
      · simp [Nat.lt_asymm h, h] at hab

instance : IsTotal (List Nat) (fun a b => lexLe a b = true) :=
  ⟨lexLe_total⟩

instance : IsTrans (List Nat) (fun a b => lexLe a b = true) :=
  ⟨lexLe_trans⟩

instance : IsAntisymm (List Nat) (fun a b => lexLe a b = true) :=
  ⟨lexLe_antisymm⟩

/-! ### Membership and canonical-form lemmas -/

theorem mem_sortCycles (L : List (List Nat)) (t : List Nat) :
    t ∈ sortCycles L ↔ t ∈ L :=
  (List.perm_insertionSort _ L).mem_iff

theorem mem_sortNodes (l : List Nat) (x : Nat) : x ∈ sortNodes l ↔ x ∈ l :=
  (List.perm_insertionSort _ l).mem_iff

theorem sortNodes_perm (l : List Nat) : (sortNodes l).Perm l :=
  List.perm_insertionSort _ l

theorem sortNodes_sorted (l : List Nat) : List.Sorted (· ≤ ·) (sortNodes l) :=
  List.sorted_insertionSort _ l

theorem sortNodes_nodup {l : List Nat} (h : l.Nodup) : (sortNodes l).Nodup :=
  (sortNodes_perm l).symm.nodup h

theorem canon_perm {l l' : List Nat} (h : l.Perm l') : canon l = canon l' := by
  unfold canon
  exact List.eq_of_perm_of_sorted
    ((sortNodes_perm _).trans (h.dedup.trans (sortNodes_perm _).symm))
    (sortNodes_sorted _) (sortNodes_sorted _)

theorem canon_of_sorted_nodup {l : List Nat}
    (hs : List.Sorted (· ≤ ·) l) (hn : l.Nodup) : canon l = l := by
  unfold canon
  rw [List.dedup_eq_self.mpr hn]
  exact List.Sorted.insertionSort_eq hs

theorem mem_canon (l : List Nat) (x : Nat) : x ∈ canon l ↔ x ∈ l := by
  unfold canon
  rw [mem_sortNodes, List.mem_dedup]

theorem mem_ite_nil {α : Type} (c : Prop) [Decidable c] (l : List α) (a : α) :
    (a ∈ if c then ([] : List α) else l) ↔ ¬c ∧ a ∈ l := by
  split_ifs with h <;> simp [h]

theorem mem_neighbors (G : Graph) (u v : Nat) :
    v ∈ G.neighbors u ↔ v ∈ G.nodes ∧ G.hasEdge u v = true := by
  unfold Graph.neighbors
  simp [List.mem_filter]

theorem hasEdge_symm (G : Graph) (u v : Nat) : G.hasEdge u v = G.hasEdge v u := by
  unfold Graph.hasEdge
  exact Bool.or_comm _ _

/-! ### Triangle enumeration -/

theorem mem_find_chordless_triangles (G : Graph) (t : List Nat) :
    t ∈ find_chordless_triangles G ↔
      ∃ u v w, u ∈ G.nodes ∧ v ∈ G.nodes ∧ w ∈ G.nodes ∧ u < v ∧ v < w ∧
        G.hasEdge u v = true ∧ G.hasEdge u w = true ∧ G.hasEdge v w = true ∧
        t = [u, v, w] := by
  unfold find_chordless_triangles trianglesRaw commonNeighbors
  rw [mem_sortCycles, List.mem_dedup]
  simp only [List.mem_flatMap, mem_ite_nil, List.mem_filter, List.mem_singleton, not_le]
  constructor
  · rintro ⟨u, hu, v, hv, huv, w, ⟨hw, hwc⟩, hvw, ht⟩
    rw [mem_neighbors] at hv hw
    have hwv : w ∈ G.neighbors v := List.elem_iff.mp hwc
    rw [mem_neighbors] at hwv
    refine ⟨u, v, w, hu, hv.1, hw.1, huv, hvw, hv.2, hw.2, hwv.2, ?_⟩
    rw [ht]
    exact canon_of_sorted_nodup
      (by simp [List.sorted_cons]; omega) (by simp; omega)
  · rintro ⟨u, v, w, hu, hv, hw, huv, hvw, he_uv, he_uw, he_vw, ht⟩
    refine ⟨u, hu, v, mem_neighbors G u v |>.mpr ⟨hv, he_uv⟩, huv, w,
      ⟨mem_neighbors G u w |>.mpr ⟨hw, he_uw⟩,
        List.elem_iff.mpr (mem_neighbors G v w |>.mpr ⟨hw, he_vw⟩)⟩, hvw, ?_⟩
    rw [ht]
    exact (canon_of_sorted_nodup
      (by simp [List.sorted_cons]; omega) (by simp; omega)).symm

theorem find_chordless_triangles_nodup (G : Graph) :
    (find_chordless_triangles G).Nodup := by
  unfold find_chordless_triangles
  exact (List.perm_insertionSort _ _).symm.nodup (List.nodup_dedup _)

theorem find_chordless_triangles_sorted (G : Graph) :
    List.Sorted (fun a b => lexLe a b = true) (find_chordless_triangles G) := by
  unfold find_chordless_triangles
  exact List.sorted_insertionSort _ _

/-- Claim C2: `find_chordless_triangles` returns exactly the triangles of the
graph — a list member is precisely a canonically ordered triple of pairwise
adjacent nodes — with no duplicates, and the list is sorted by the
canonical (sorted-member, lexicographic) order. -/
theorem find_chordless_triangles_spec (G : Graph) :
    (∀ t, t ∈ find_chordless_triangles G ↔
      ∃ u v w, u ∈ G.nodes ∧ v ∈ G.nodes ∧ w ∈ G.nodes ∧ u < v ∧ v < w ∧
        G.hasEdge u v = true ∧ G.hasEdge u w = true ∧ G.hasEdge v w = true ∧
        t = [u, v, w]) ∧
    (find_chordless_triangles G).Nodup ∧
    List.Sorted (fun a b => lexLe a b = true) (find_chordless_triangles G) :=
  ⟨fun t => mem_find_chordless_triangles G t,
    find_chordless_triangles_nodup G, find_chordless_triangles_sorted G⟩

/-! ### Square enumeration -/

theorem two_le_length_of_mem {α : Type} {x y : α} {l : List α}
    (hx : x ∈ l) (hy : y ∈ l) (hxy : x ≠ y) : 2 ≤ l.length := by
  induction l with
  | nil => simp at hx
  | cons c t ih =>
    rcases List.mem_cons.mp hx with hx1 | hx1
    · rcases List.mem_cons.mp hy with hy1 | hy1
      · exact absurd (hx1.trans hy1.symm) hxy
      · have := List.length_pos.mpr (List.ne_nil_of_mem hy1)
        simp only [List.length_cons]
        omega
    · rcases List.mem_cons.mp hy with hy1 | hy1
      · have := List.length_pos.mpr (List.ne_nil_of_mem hx1)
        simp only [List.length_cons]
        omega
      · have := ih hx1 hy1
        simp only [List.length_cons]
        omega

theorem pairsOf_mem {l : List Nat} {q : Nat × Nat} (h : q ∈ pairsOf l) :
    q.1 ∈ l ∧ q.2 ∈ l := by
  induction l with
  | nil => simp [pairsOf] at h
  | cons x xs ih =>
    unfold pairsOf at h
    rcases List.mem_append.mp h with h1 | h1
    · obtain ⟨y, hy, rfl⟩ := List.mem_map.mp h1
      exact ⟨List.mem_cons_self _ _, List.mem_cons_of_mem _ hy⟩
    · have := ih h1
      exact ⟨List.mem_cons_of_mem _ this.1, List.mem_cons_of_mem _ this.2⟩

theorem pairsOf_ne {l : List Nat} (hl : l.Nodup) {q : Nat × Nat}
    (h : q ∈ pairsOf l) : q.1 ≠ q.2 := by
  induction l with
  | nil => simp [pairsOf] at h
  | cons x xs ih =>
    rcases List.nodup_cons.mp hl with ⟨hx, hxs⟩
    unfold pairsOf at h
    rcases List.mem_append.mp h with h1 | h1
    · obtain ⟨y, hy, rfl⟩ := List.mem_map.mp h1
      intro hxy
      exact hx ((show x = y from hxy) ▸ hy)
    · exact ih hxs h1

theorem pairsOf_complete {l : List Nat} (hl : l.Nodup) {u v : Nat}
    (hu : u ∈ l) (hv : v ∈ l) (huv : u ≠ v) :
    (u, v) ∈ pairsOf l ∨ (v, u) ∈ pairsOf l := by
  induction l with
  | nil => simp at hu
  | cons x xs ih =>
    rcases List.nodup_cons.mp hl with ⟨_, hxs⟩
    unfold pairsOf
    rcases List.mem_cons.mp hu with hu1 | hu1
    · subst hu1
      have hv' : v ∈ xs := by
        rcases List.mem_cons.mp hv with h | h
        · exact absurd h.symm huv
        · exact h
      exact Or.inl (List.mem_append.mpr (Or.inl (List.mem_map.mpr ⟨v, hv', rfl⟩)))
    · rcases List.mem_cons.mp hv with hv1 | hv1
      · subst hv1
        exact Or.inr (List.mem_append.mpr (Or.inl (List.mem_map.mpr ⟨u, hu1, rfl⟩)))
      · rcases ih hxs hu1 hv1 with h | h
        · exact Or.inl (List.mem_append.mpr (Or.inr h))
        · exact Or.inr (List.mem_append.mpr (Or.inr h))

theorem ne_of_hasEdge {G : Graph} (hWF : G.WF) {u v : Nat}
    (h : G.hasEdge u v = true) : u ≠ v := by
  unfold Graph.hasEdge at h
  rcases Bool.or_eq_true_iff.mp h with h1 | h1
  · exact (hWF.2 _ (List.elem_iff.mp h1)).2.2
  · exact ((hWF.2 _ (List.elem_iff.mp h1)).2.2).symm

theorem neighbors_nodup {G : Graph} (hWF : G.WF) (u : Nat) :
    (G.neighbors u).Nodup :=
  hWF.1.filter _

theorem mem_commonNeighbors (G : Graph) (u v w : Nat) :
    w ∈ commonNeighbors G u v ↔
      w ∈ G.nodes ∧ G.hasEdge u w = true ∧ G.hasEdge v w = true := by
  unfold commonNeighbors
  rw [List.mem_filter, mem_neighbors]
  constructor
  · rintro ⟨⟨hn, he⟩, hc⟩
    have := mem_neighbors G v w |>.mp (List.elem_iff.mp hc)
    exact ⟨hn, he, this.2⟩
  · rintro ⟨hn, he1, he2⟩
    exact ⟨⟨hn, he1⟩, List.elem_iff.mpr (mem_neighbors G v w |>.mpr ⟨hn, he2⟩)⟩

theorem commonNeighbors_nodup {G : Graph} (hWF : G.WF) (u v : Nat) :
    (commonNeighbors G u v).Nodup :=
  (neighbors_nodup hWF u).filter _

/-- Completeness helper for the square discovery body: a square pattern
whose non-adjacent pair appears (in this orientation) in the pair list is
discovered. -/
theorem mem_squaresRaw_of (G : Graph) (hWF : G.WF) {u v a b : Nat}
    (hq : (u, v) ∈ pairsOf G.nodes)
    (huv : G.hasEdge u v = false) (hab_ne : a ≠ b)
    (hab : G.hasEdge a b = false)
    (hau : G.hasEdge u a = true) (hav : G.hasEdge v a = true)
    (hbu : G.hasEdge u b = true) (hbv : G.hasEdge v b = true)
    (han : a ∈ G.nodes) (hbn : b ∈ G.nodes) :
    canon [u, v, a, b] ∈ squaresRaw G := by
  unfold squaresRaw
  rw [List.mem_flatMap]
  refine ⟨(u, v), hq, ?_⟩
  have hamem : a ∈ commonNeighbors G u v :=
    (mem_commonNeighbors G u v a).mpr ⟨han, hau, hav⟩
  have hbmem : b ∈ commonNeighbors G u v :=
    (mem_commonNeighbors G u v b).mpr ⟨hbn, hbu, hbv⟩
  have hlen : ¬ (commonNeighbors G u v).length < 2 := by
    have := two_le_length_of_mem hamem hbmem hab_ne
    omega
  have hsn : (sortNodes (commonNeighbors G u v)).Nodup :=
    sortNodes_nodup (commonNeighbors_nodup hWF u v)
  have ha' : a ∈ sortNodes (commonNeighbors G u v) :=
    (mem_sortNodes _ a).mpr hamem
  have hb' : b ∈ sortNodes (commonNeighbors G u v) :=
    (mem_sortNodes _ b).mpr hbmem
  simp only [huv, Bool.false_eq_true, if_false, hlen]
  rw [List.mem_flatMap]
  rcases pairsOf_complete hsn ha' hb' hab_ne with hor | hor
  · refine ⟨(a, b), hor, ?_⟩
    simp only [hab_ne, if_false, hab, Bool.false_eq_true, List.mem_singleton]
  · refine ⟨(b, a), hor, ?_⟩
    have hba : G.hasEdge b a = false := (hasEdge_symm G a b) ▸ hab
    simp only [Ne.symm hab_ne, if_false, hba, Bool.false_eq_true,
      List.mem_singleton]
    exact canon_perm (by
      refine List.Perm.cons u (List.Perm.cons v ?_)
      exact List.Perm.swap b a [])

theorem mem_find_chordless_4cycles (G : Graph) (hWF : G.WF) (s : List Nat) :
    s ∈ find_chordless_4cycles G ↔
      ∃ u v a b, u ∈ G.nodes ∧ v ∈ G.nodes ∧ a ∈ G.nodes ∧ b ∈ G.nodes ∧
        u ≠ v ∧ a ≠ b ∧ G.hasEdge u v = false ∧ G.hasEdge a b = false ∧
        G.hasEdge u a = true ∧ G.hasEdge v a = true ∧
        G.hasEdge u b = true ∧ G.hasEdge v b = true ∧
        s = canon [u, v, a, b] := by
  unfold find_chordless_4cycles
  rw [mem_sortCycles, List.mem_dedup]
  constructor
  · intro h
    unfold squaresRaw at h
    obtain ⟨q, hq, hbody⟩ := List.mem_flatMap.mp h
    obtain ⟨u, v⟩ := q
    simp only [mem_ite_nil, List.mem_flatMap, List.mem_singleton] at hbody
    obtain ⟨h1, h2, q2, hq2, h3, h4, hb2⟩ := hbody
    obtain ⟨a, b⟩ := q2
    have h1' : G.hasEdge u v = false := Bool.not_eq_true _ |>.mp h1
    have h3' : a ≠ b := h3
    have h4' : G.hasEdge a b = false := Bool.not_eq_true _ |>.mp h4
    have hb2' : s = canon [u, v, a, b] := hb2
    have hmem := pairsOf_mem hq
    have hune : u ≠ v := pairsOf_ne hWF.1 hq
    have hca := (mem_commonNeighbors G u v a).mp
      ((mem_sortNodes _ a).mp (pairsOf_mem hq2).1)
    have hcb := (mem_commonNeighbors G u v b).mp
      ((mem_sortNodes _ b).mp (pairsOf_mem hq2).2)
    exact ⟨u, v, a, b, hmem.1, hmem.2, hca.1, hcb.1, hune, h3', h1', h4',
      hca.2.1, hca.2.2, hcb.2.1, hcb.2.2, hb2'⟩
  · rintro ⟨u, v, a, b, hun, hvn, han, hbn, hune, habne, huv, hab,
      hua, hva, hub, hvb, rfl⟩
    rcases pairsOf_complete hWF.1 hun hvn hune with hor | hor
    · exact mem_squaresRaw_of G hWF hor huv habne hab hua hva hub hvb han hbn
    · have hvu : G.hasEdge v u = false := (hasEdge_symm G u v) ▸ huv
      have : canon [v, u, a, b] ∈ squaresRaw G :=
        mem_squaresRaw_of G hWF hor hvu habne hab hva hua hvb hub han hbn
      have hcc : canon [u, v, a, b] = canon [v, u, a, b] :=
        canon_perm (List.Perm.swap v u [a, b])
      rw [hcc]
      exact this

theorem find_chordless_4cycles_nodup (G : Graph) :
    (find_chordless_4cycles G).Nodup := by
  unfold find_chordless_4cycles
  exact (List.perm_insertionSort _ _).symm.nodup (List.nodup_dedup _)

theorem find_chordless_4cycles_card (G : Graph) (hWF : G.WF) :
    ∀ s ∈ find_chordless_4cycles G, s.length = 4 ∧ s.Nodup := by
  intro s hs
  obtain ⟨u, v, a, b, hun, hvn, han, hbn, hune, habne, huv, hab,
    hua, hva, hub, hvb, rfl⟩ := (mem_find_chordless_4cycles G hWF s).mp hs
  have hau : a ≠ u := (ne_of_hasEdge hWF hua).symm
  have hav : a ≠ v := (ne_of_hasEdge hWF hva).symm
  have hbu : b ≠ u := (ne_of_hasEdge hWF hub).symm
  have hbv : b ≠ v := (ne_of_hasEdge hWF hvb).symm
  have hnd : ([u, v, a, b] : List Nat).Nodup := by
    simp [hune, habne, hau, hav, hbu, hbv, Ne.symm hau, Ne.symm hav,
      Ne.symm hbu, Ne.symm hbv]
  have hperm : (canon [u, v, a, b]).Perm [u, v, a, b] := by
    unfold canon
    rw [List.dedup_eq_self.mpr hnd]
    exact sortNodes_perm _
  exact ⟨by rw [hperm.length_eq]; rfl, hperm.symm.nodup hnd⟩

/-- Claim C3: `find_chordless_4cycles` returns exactly the chordless squares of
the graph — a list member is precisely the canonical form of a 4-node set
{u, v, a, b} with u-v not an edge, a-b not an edge, and a and b each
adjacent to both u and v — with each square listed exactly once, and every
listed square consisting of 4 distinct nodes. -/
theorem find_chordless_4cycles_spec (G : Graph) (hWF : G.WF) :
    (∀ s, s ∈ find_chordless_4cycles G ↔
      ∃ u v a b, u ∈ G.nodes ∧ v ∈ G.nodes ∧ a ∈ G.nodes ∧ b ∈ G.nodes ∧
        u ≠ v ∧ a ≠ b ∧ G.hasEdge u v = false ∧ G.hasEdge a b = false ∧
        G.hasEdge u a = true ∧ G.hasEdge v a = true ∧
        G.hasEdge u b = true ∧ G.hasEdge v b = true ∧
        s = canon [u, v, a, b]) ∧
    (find_chordless_4cycles G).Nodup ∧
    (∀ s ∈ find_chordless_4cycles G, s.length = 4 ∧ s.Nodup) :=
  ⟨fun s => mem_find_chordless_4cycles G hWF s,
    find_chordless_4cycles_nodup G, find_chordless_4cycles_card G hWF⟩

theorem find_chordless_4cycles_spec_witness :
    (Graph.WF ⟨false, [1, 2, 3, 4], [(1, 2), (2, 3), (3, 4), (1, 4)]⟩) ∧
    (find_chordless_4cycles
      ⟨false, [1, 2, 3, 4], [(1, 2), (2, 3), (3, 4), (1, 4)]⟩).Nodup :=
  ⟨by decide,
    (find_chordless_4cycles_spec
      ⟨false, [1, 2, 3, 4], [(1, 2), (2, 3), (3, 4), (1, 4)]⟩ (by decide)).2.1⟩

/-! ### General list lemmas -/

theorem sum_map_ite (l : List Nat) (p : Nat → Bool) (f : Nat → ℚ) :
    (l.map (fun j => if p j = true then f j else 0)).sum
      = ((l.filter p).map f).sum := by
  induction l with
  | nil => rfl
  | cons a t ih =>
    by_cases h : p a = true <;>
      simp [List.filter_cons, h, ih]

/-! ### Cycle count invariants -/

theorem sortNodes_sorted_lt {c : List Nat} (h : c.Nodup) :
    List.Sorted (· < ·) (sortNodes c) :=
  (sortNodes_sorted c).lt_of_le (sortNodes_nodup h)

theorem count_map_pair (x u v : Nat) (xs : List Nat) :
    ((xs.map (fun y => (x, y))).count (u, v)) = if u = x then xs.count v else 0 := by
  induction xs with
  | nil => simp
  | cons y ys ih =>
    simp only [List.map_cons, List.count_cons, ih, Prod.mk.injEq]
    by_cases hu : u = x <;> by_cases hv : v = y <;>
      simp [hu, hv] <;> omega

theorem count_pairsOf_sorted {l : List Nat} (hs : List.Sorted (· < ·) l)
    (u v : Nat) :
    ((pairsOf l).map (fun q => _pair q.1 q.2)).count (u, v)
      = if u ∈ l ∧ v ∈ l ∧ u < v then 1 else 0 := by
  induction l with
  | nil => simp [pairsOf]
  | cons x xs ih =>
    have hlt : ∀ y ∈ xs, x < y := (List.sorted_cons.mp hs).1
    have hs' : List.Sorted (· < ·) xs := hs.of_cons
    unfold pairsOf
    rw [List.map_append, List.count_append, ih hs']
    have hmap : ((xs.map (fun y => (x, y))).map (fun q => _pair q.1 q.2))
        = xs.map (fun y => (x, y)) := by
      rw [List.map_map]
      apply List.map_congr_left
      intro y hy
      simp only [Function.comp_apply]
      unfold _pair
      rw [if_pos (hlt y hy)]
    rw [hmap, count_map_pair]
    have hxnotmem : x ∉ xs := fun hx => absurd (hlt x hx) (lt_irrefl x)
    have hndxs : xs.Nodup := hs'.imp (fun h => ne_of_lt h)
    by_cases hu : u = x
    · subst hu
      rw [if_pos rfl]
      by_cases hv : v ∈ xs
      · rw [List.count_eq_one_of_mem hndxs hv]
        have h1 : ¬ (u ∈ xs ∧ v ∈ xs ∧ u < v) := fun h => hxnotmem h.1
        have h2 : u ∈ u :: xs ∧ v ∈ u :: xs ∧ u < v :=
          ⟨List.mem_cons_self _ _, List.mem_cons_of_mem _ hv, hlt v hv⟩
        rw [if_neg h1, if_pos h2]
      · rw [List.count_eq_zero_of_not_mem hv]
        have h1 : ¬ (u ∈ xs ∧ v ∈ xs ∧ u < v) := fun h => hv h.2.1
        have h2 : ¬ (u ∈ u :: xs ∧ v ∈ u :: xs ∧ u < v) := by
          rintro ⟨-, hvm, hxv⟩
          rcases List.mem_cons.mp hvm with h | h
          · exact absurd hxv (h ▸ lt_irrefl u)
          · exact hv h
        rw [if_neg h1, if_neg h2]
    · rw [if_neg hu]
      have hiff : (u ∈ xs ∧ v ∈ xs ∧ u < v) ↔
          (u ∈ x :: xs ∧ v ∈ x :: xs ∧ u < v) := by
        constructor
        · rintro ⟨h1, h2, h3⟩
          exact ⟨List.mem_cons_of_mem _ h1, List.mem_cons_of_mem _ h2, h3⟩
        · rintro ⟨h1, h2, h3⟩
          have hu' : u ∈ xs := by
            rcases List.mem_cons.mp h1 with h | h
            · exact absurd h hu
            · exact h
          have hv' : v ∈ xs := by
            rcases List.mem_cons.mp h2 with h | h
            · exfalso
              have := hlt u hu'
              omega
            · exact h
          exact ⟨hu', hv', h3⟩
      by_cases hc : u ∈ xs ∧ v ∈ xs ∧ u < v
      · rw [if_pos hc, if_pos (hiff.mp hc)]
      · rw [if_neg hc, if_neg (fun h => hc (hiff.mpr h))]

theorem build_cycle_counts_le (cycles : List (List Nat))
    (hnd : ∀ c ∈ cycles, c.Nodup) (u v : Nat) :
    0 < build_cycle_counts_cij cycles (u, v) →
      build_cycle_counts_cij cycles (u, v)
          ≤ min (build_cycle_counts_cii cycles u)
              (build_cycle_counts_cii cycles v) ∧
        0 < build_cycle_counts_cii cycles u ∧
        0 < build_cycle_counts_cii cycles v := by
  intro hpos
  have hle_u : ∀ c ∈ cycles,
      ((pairsOf (sortNodes c)).map (fun q => _pair q.1 q.2)).count (u, v)
        ≤ (sortNodes c).count u := by
    intro c hc
    rw [count_pairsOf_sorted (sortNodes_sorted_lt (hnd c hc))]
    by_cases h : u ∈ sortNodes c ∧ v ∈ sortNodes c ∧ u < v
    · rw [if_pos h, List.count_eq_one_of_mem (sortNodes_nodup (hnd c hc)) h.1]
    · rw [if_neg h]
      exact Nat.zero_le _
  have hle_v : ∀ c ∈ cycles,
      ((pairsOf (sortNodes c)).map (fun q => _pair q.1 q.2)).count (u, v)
        ≤ (sortNodes c).count v := by
    intro c hc
    rw [count_pairsOf_sorted (sortNodes_sorted_lt (hnd c hc))]
    by_cases h : u ∈ sortNodes c ∧ v ∈ sortNodes c ∧ u < v
    · rw [if_pos h, List.count_eq_one_of_mem (sortNodes_nodup (hnd c hc)) h.2.1]
    · rw [if_neg h]
      exact Nat.zero_le _
  have hex : ∃ c ∈ cycles,
      0 < ((pairsOf (sortNodes c)).map (fun q => _pair q.1 q.2)).count (u, v) := by
    by_contra hno
    push_neg at hno
    have hz : build_cycle_counts_cij cycles (u, v) = 0 := by
      unfold build_cycle_counts_cij
      apply List.sum_eq_zero
      intro x hx
      obtain ⟨c, hc, rfl⟩ := List.mem_map.mp hx
      have := hno c hc
      omega
    omega
  obtain ⟨c, hc, hcpos⟩ := hex
  rw [count_pairsOf_sorted (sortNodes_sorted_lt (hnd c hc))] at hcpos
  by_cases h : u ∈ sortNodes c ∧ v ∈ sortNodes c ∧ u < v
  case neg => rw [if_neg h] at hcpos; omega
  rw [if_pos h] at hcpos
  have hcu : (sortNodes c).count u = 1 :=
    List.count_eq_one_of_mem (sortNodes_nodup (hnd c hc)) h.1
  have hcv : (sortNodes c).count v = 1 :=
    List.count_eq_one_of_mem (sortNodes_nodup (hnd c hc)) h.2.1
  have hsumu : (sortNodes c).count u
      ≤ (cycles.map (fun c => (sortNodes c).count u)).sum :=
    List.single_le_sum (fun _ _ => Nat.zero_le _) _
      (List.mem_map.mpr ⟨c, hc, rfl⟩)
  have hsumv : (sortNodes c).count v
      ≤ (cycles.map (fun c => (sortNodes c).count v)).sum :=
    List.single_le_sum (fun _ _ => Nat.zero_le _) _
      (List.mem_map.mpr ⟨c, hc, rfl⟩)
  refine ⟨?_, ?_, ?_⟩
  · rw [Nat.le_min]
    exact ⟨List.sum_le_sum hle_u, List.sum_le_sum hle_v⟩
  · unfold build_cycle_counts_cii
    omega
  · unfold build_cycle_counts_cii
    omega

/-- Claim C10: for cycles that are duplicate-free node lists, every pair key with
a positive c_ij count satisfies c_ij[(u,v)] <= min(c_ii[u], c_ii[v]) with
both endpoint counts positive; in particular the scorer's neighbor guard
`c_ij > 0` already forces `c_ii[j] > 0`. -/
theorem build_cycle_counts_invariant (cycles : List (List Nat))
    (hnd : ∀ c ∈ cycles, c.Nodup) :
    (∀ u v, 0 < build_cycle_counts_cij cycles (u, v) →
      build_cycle_counts_cij cycles (u, v)
          ≤ min (build_cycle_counts_cii cycles u)
              (build_cycle_counts_cii cycles v) ∧
        0 < build_cycle_counts_cii cycles u ∧
        0 < build_cycle_counts_cii cycles v) ∧
    (∀ i j, 0 < build_cycle_counts_cij cycles (_pair i j) →
      0 < build_cycle_counts_cii cycles j) := by
  refine ⟨fun u v h => build_cycle_counts_le cycles hnd u v h, ?_⟩
  intro i j h
  unfold _pair at h
  by_cases hij : i < j
  · rw [if_pos hij] at h
    exact (build_cycle_counts_le cycles hnd i j h).2.2
  · rw [if_neg hij] at h
    exact (build_cycle_counts_le cycles hnd j i h).2.1

theorem build_cycle_counts_invariant_witness :
    (∀ c ∈ ([[1, 2, 3]] : List (List Nat)), c.Nodup) ∧
    0 < build_cycle_counts_cij [[1, 2, 3]] (1, 2) ∧
    (build_cycle_counts_cij [[1, 2, 3]] (1, 2)
        ≤ min (build_cycle_counts_cii [[1, 2, 3]] 1)
            (build_cycle_counts_cii [[1, 2, 3]] 2) ∧
      0 < build_cycle_counts_cii [[1, 2, 3]] 1 ∧
      0 < build_cycle_counts_cii [[1, 2, 3]] 2) :=
  ⟨by decide, by decide,
    (build_cycle_counts_invariant [[1, 2, 3]] (by decide)).1 1 2 (by decide)⟩

/-! ### Claims about the CRimp scorer -/

/-- Claim C1: with the self term included, the CRimp score of a node i is k_t[i]
when c_ii[i] = 0, and otherwise 1 plus the sum over neighbors j with
c_ij[(i,j)] > 0 and c_ii[j] > 0 of c_ij[(i,j)] / c_ii[j], plus k_t[i] —
that is, `compute_crimp_scores` with the self term agrees with the spec's
formula `crimp_score_spec` on every input. -/
theorem compute_crimp_scores_eq_spec (G : Graph) (c_ii : Nat → Nat)
    (c_ij : Nat × Nat → Nat) (k_t : Nat → Nat) (i : Nat) :
    compute_crimp_scores G c_ii c_ij k_t true i
      = crimp_score_spec G c_ii c_ij k_t i := by
  unfold compute_crimp_scores crimp_score_spec
  by_cases h : c_ii i = 0
  · rw [if_pos h, if_pos h]
  · rw [if_neg h, if_neg h]
    have hterm : ((G.neighbors i).map (fun j =>
        let cij := c_ij (_pair i j)
        if cij ≤ 0 then (0 : ℚ)
        else
          let cjj := c_ii j
          if 0 < cjj then (cij : ℚ) / (cjj : ℚ) else 0)).sum
      = ((G.neighbors i).map (fun j =>
          if (decide (0 < c_ij (_pair i j)) && decide (0 < c_ii j)) = true
          then (c_ij (_pair i j) : ℚ) / (c_ii j : ℚ) else 0)).sum := by
      congr 1
      apply List.map_congr_left
      intro j _
      by_cases hc : c_ij (_pair i j) = 0
      · simp [hc]
      · have hc' : ¬ c_ij (_pair i j) ≤ 0 := by omega
        have hcpos : 0 < c_ij (_pair i j) := by omega
        by_cases hj : 0 < c_ii j <;> simp [hc', hj, hcpos]
    simp only [hterm, sum_map_ite]
    norm_num

/-- Claim C7: the self-term toggle changes the score of every node with
c_ii[i] > 0 by exactly +1 and leaves every node with c_ii[i] = 0
unchanged, all other inputs equal. -/
theorem compute_crimp_scores_self_toggle (G : Graph) (c_ii : Nat → Nat)
    (c_ij : Nat × Nat → Nat) (k_t : Nat → Nat) (i : Nat) :
    (0 < c_ii i → compute_crimp_scores G c_ii c_ij k_t true i
      = compute_crimp_scores G c_ii c_ij k_t false i + 1) ∧
    (c_ii i = 0 → compute_crimp_scores G c_ii c_ij k_t true i
      = compute_crimp_scores G c_ii c_ij k_t false i) := by
  unfold compute_crimp_scores
  constructor
  · intro h
    have h0 : ¬ c_ii i = 0 := by omega
    rw [if_neg h0, if_neg h0]
    have hs1 : (if (true : Bool) = true then (1 : ℚ) else 0) = 1 := rfl
    have hs0 : (if (false : Bool) = true then (1 : ℚ) else 0) = 0 := rfl
    rw [hs1, hs0]
    ring
  · intro h
    rw [if_pos h, if_pos h]

theorem compute_crimp_scores_self_toggle_witness :
    0 < (fun _ : Nat => 1) 0 ∧
    compute_crimp_scores ⟨false, [0], []⟩ (fun _ => 1) (fun _ => 0) (fun _ => 0) true 0
      = compute_crimp_scores ⟨false, [0], []⟩ (fun _ => 1) (fun _ => 0) (fun _ => 0) false 0 + 1 :=
  ⟨by decide,
    (compute_crimp_scores_self_toggle ⟨false, [0], []⟩ (fun _ => 1)
      (fun _ => 0) (fun _ => 0) 0).1 (by decide)⟩

/-! ### Cycle Ratio engine: discovery fold -/

theorem mem_foldl_addCycle (l : List (List Nat)) (acc : List (List Nat))
    (c : List Nat) : c ∈ l.foldl addCycle acc ↔ c ∈ acc ∨ c ∈ l := by
  induction l generalizing acc with
  | nil => simp
  | cons x xs ih =>
    rw [List.foldl_cons, ih]
    unfold addCycle
    by_cases h : acc.contains x
    · rw [if_pos h]
      have hx : x ∈ acc := List.elem_iff.mp h
      constructor
      · rintro (h1 | h1)
        · exact Or.inl h1
        · exact Or.inr (List.mem_cons_of_mem _ h1)
      · rintro (h1 | h1)
        · exact Or.inl h1
        · rcases List.mem_cons.mp h1 with rfl | h1
          · exact Or.inl hx
          · exact Or.inr h1
    · rw [if_neg h]
      constructor
      · rintro (h1 | h1)
        · rcases List.mem_append.mp h1 with h2 | h2
          · exact Or.inl h2
          · exact Or.inr (List.mem_cons.mpr (Or.inl (List.mem_singleton.mp h2)))
        · exact Or.inr (List.mem_cons_of_mem _ h1)
      · rintro (h1 | h1)
        · exact Or.inl (List.mem_append.mpr (Or.inl h1))
        · rcases List.mem_cons.mp h1 with rfl | h1
          · exact Or.inl (List.mem_append.mpr (Or.inr (List.mem_singleton.mpr rfl)))
          · exact Or.inr h1

theorem foldl_discoveryStep (G : Graph) (cs : List (List Nat))
    (l : List Nat) :
    (l.foldl discoveryStep { graph := G, cycles := cs }).graph = G ∧
    (l.foldl discoveryStep { graph := G, cycles := cs }).cycles
      = (l.flatMap (perNodeCycles G)).foldl addCycle cs := by
  induction l generalizing cs with
  | nil => exact ⟨rfl, rfl⟩
  | cons v vs ih =>
    rw [List.foldl_cons, List.flatMap_cons, List.foldl_append]
    have hstep : discoveryStep { graph := G, cycles := cs } v
        = { graph := G, cycles := (perNodeCycles G v).foldl addCycle cs } := rfl
    rw [hstep]
    exact ih ((perNodeCycles G v).foldl addCycle cs)

theorem mem_recordedCycles (G : Graph) (c : List Nat) :
    c ∈ recordedCycles G ↔ ∃ v ∈ G.nodes, c ∈ perNodeCycles G v := by
  unfold recordedCycles runDiscovery
  rw [(foldl_discoveryStep G [] G.nodes).2, mem_foldl_addCycle]
  simp [List.mem_flatMap]

/-- Claim C9: the Cycle Ratio engine never mutates the graph it holds: the graph
component of the engine state is unchanged by every discovery iteration and
by the whole discovery run, and the recorded cycle set equals the union of
per-node discoveries each computed against the original graph (each
iteration's node removal acts on a fresh `removeNode` copy of the original
graph, never on another iteration's result). -/
theorem engine_preserves_graph (G : Graph) :
    (runDiscovery G).graph = G ∧
    (∀ s v, (discoveryStep s v).graph = s.graph) ∧
    recordedCycles G
      = (G.nodes.flatMap (perNodeCycles G)).foldl addCycle [] :=
  ⟨(foldl_discoveryStep G [] G.nodes).1, fun _ _ => rfl,
    (foldl_discoveryStep G [] G.nodes).2⟩

/-! ### Cycle Ratio engine: scoring -/

theorem filter_eq_pred_singleton {c : List Nat} (h : c.Nodup) (i : Nat) :
    c.filter (fun n => n = i) = if i ∈ c then [i] else [] := by
  induction c with
  | nil => simp
  | cons x xs ih =>
    rcases List.nodup_cons.mp h with ⟨hx, hxs⟩
    rw [List.filter_cons]
    by_cases hxi : x = i
    · subst hxi
      rw [if_pos (by simp), ih hxs, if_neg hx,
        if_pos (List.mem_cons_self _ _)]
    · rw [if_neg (by simp [hxi]), ih hxs]
      by_cases hmem : i ∈ xs
      · rw [if_pos hmem, if_pos (List.mem_cons_of_mem _ hmem)]
      · rw [if_neg hmem, if_neg (by
          intro hc
          rcases List.mem_cons.mp hc with h' | h'
          · exact hxi h'.symm
          · exact hmem h')]

theorem cycle_map_eq_cyclesWith (i : Nat) :
    ∀ (cycles : List (List Nat)), (∀ c ∈ cycles, c.Nodup) →
      cycle_map cycles i = cyclesWith cycles i := by
  intro cycles
  induction cycles with
  | nil => intro _; rfl
  | cons c cs ih =>
    intro hnd
    have hc := hnd c (List.mem_cons_self _ _)
    have ihh := ih (fun d hd => hnd d (List.mem_cons_of_mem _ hd))
    unfold cycle_map cyclesWith at ihh ⊢
    rw [List.flatMap_cons, List.filter_cons, ihh,
      filter_eq_pred_singleton hc i]
    by_cases hmem : i ∈ c
    · rw [if_pos hmem, if_pos (List.elem_iff.mpr hmem)]
      rfl
    · rw [if_neg hmem, if_neg (fun h => hmem (List.elem_iff.mp h))]
      rfl

theorem sum_count_eq_filter_length (j : Nat) :
    ∀ (L : List (List Nat)), (∀ c ∈ L, c.Nodup) →
      (L.map (fun c => c.count j)).sum
        = (L.filter (fun c => c.contains j)).length := by
  intro L
  induction L with
  | nil => intro _; rfl
  | cons c cs ih =>
    intro hnd
    have hc := hnd c (List.mem_cons_self _ _)
    have ihh := ih (fun d hd => hnd d (List.mem_cons_of_mem _ hd))
    rw [List.map_cons, List.sum_cons, ihh, List.filter_cons]
    by_cases hmem : j ∈ c
    · rw [List.count_eq_one_of_mem hc hmem, if_pos (List.elem_iff.mpr hmem)]
      rw [List.length_cons]
      omega
    · rw [List.count_eq_zero_of_not_mem hmem,
        if_neg (fun h => hmem (List.elem_iff.mp h))]
      omega

/-- Claim C4: the Cycle Ratio engine's score of a node i over a recorded
(duplicate-free) cycle list is 0 when i is in no recorded cycle, and
otherwise the sum over nodes j distinct from i co-occurring with i, with a
positive own cycle count, of (number of cycles containing both) divided by
(number of cycles containing j) — with no self term: `cycleRatioScore`
agrees with the spec's formula `cycleRatioScoreSpec`. -/
theorem cycleRatioScore_formula (cycles : List (List Nat))
    (hnd : ∀ c ∈ cycles, c.Nodup) (i : Nat) :
    cycleRatioScore cycles i = cycleRatioScoreSpec cycles i := by
  have hcm : ∀ k, cycle_map cycles k = cyclesWith cycles k :=
    fun k => cycle_map_eq_cyclesWith k cycles hnd
  have hnd' : ∀ c ∈ cyclesWith cycles i, c.Nodup :=
    fun c hc => hnd c (List.mem_filter.mp hc).1
  unfold cycleRatioScore cycleRatioScoreSpec sharedKeys shared_counts
  simp only [hcm]
  by_cases hz : (cyclesWith cycles i).length = 0
  · rw [if_pos hz, if_pos hz]
  · rw [if_neg hz, if_neg hz]
    have hterm : ∀ j, ((cyclesWith cycles i).map (fun c => c.count j)).sum
        = ((cyclesWith cycles i).filter (fun c => c.contains j)).length :=
      fun j => sum_count_eq_filter_length j _ hnd'
    rw [← sum_map_ite]
    congr 1
    apply List.map_congr_left
    intro j _
    by_cases hji : j = i
    · simp [hji]
    · by_cases hcj : 0 < (cyclesWith cycles j).length
      · simp [hji, hcj, hterm j]
      · simp [hji, hcj]

theorem cycleRatioScore_formula_witness :
    (∀ c ∈ ([[1, 2, 3], [2, 3, 4]] : List (List Nat)), c.Nodup) ∧
    cycleRatioScore [[1, 2, 3], [2, 3, 4]] 2
      = cycleRatioScoreSpec [[1, 2, 3], [2, 3, 4]] 2 :=
  ⟨by decide, cycleRatioScore_formula [[1, 2, 3], [2, 3, 4]] (by decide) 2⟩

/-! ### Cycle Ratio engine: paths and degrees -/

theorem mem_removeNode_nodes (G : Graph) (v x : Nat) :
    x ∈ (removeNode G v).nodes ↔ x ∈ G.nodes ∧ x ≠ v := by
  unfold removeNode
  simp [List.mem_filter]

theorem hasEdge_removeNode {G : Graph} {v a b : Nat}
    (h : (removeNode G v).hasEdge a b = true) : G.hasEdge a b = true := by
  have hE : (removeNode G v).edges
      = G.edges.filter (fun e => decide (e.1 ≠ v ∧ e.2 ≠ v)) := rfl
  unfold Graph.hasEdge at h ⊢
  rw [hE] at h
  rcases Bool.or_eq_true_iff.mp h with h1 | h1
  · have := List.mem_filter.mp (List.elem_iff.mp h1)
    exact Bool.or_eq_true_iff.mpr (Or.inl (List.elem_iff.mpr this.1))
  · have := List.mem_filter.mp (List.elem_iff.mp h1)
    exact Bool.or_eq_true_iff.mpr (Or.inr (List.elem_iff.mpr this.1))

theorem two_le_degree (G : Graph) {x y z : Nat} (hyz : y ≠ z)
    (hy : y ∈ G.nodes) (hz : z ∈ G.nodes)
    (hEy : G.hasEdge x y = true) (hEz : G.hasEdge x z = true) :
    2 ≤ G.degree x :=
  two_le_length_of_mem ((mem_neighbors G x y).mpr ⟨hy, hEy⟩)
    ((mem_neighbors G x z).mpr ⟨hz, hEz⟩) hyz

theorem simplePathsAux_sound (G : Graph) (dst : Nat) :
    ∀ fuel cur visited p, cur ∉ visited →
      p ∈ simplePathsAux G dst fuel cur visited →
      p.head? = some cur ∧ p.getLast? = some dst ∧
      List.Chain' (fun a b => G.hasEdge a b = true) p ∧ p.Nodup ∧
      (∀ x ∈ p, x ∉ visited) ∧ (∀ x ∈ p, x = cur ∨ x ∈ G.nodes) := by
  intro fuel
  induction fuel with
  | zero =>
    intro cur visited p _ hp
    simp [simplePathsAux] at hp
  | succ n ih =>
    intro cur visited p hcv hp
    unfold simplePathsAux at hp
    by_cases hd : cur = dst
    · rw [if_pos hd, List.mem_singleton] at hp
      subst hp
      refine ⟨rfl, by simp [hd], by simp, by simp, ?_, ?_⟩
      · intro x hx
        rw [List.mem_singleton] at hx
        subst hx
        exact hcv
      · intro x hx
        rw [List.mem_singleton] at hx
        exact Or.inl hx
    · rw [if_neg hd] at hp
      obtain ⟨m, hm, hp2⟩ := List.mem_flatMap.mp hp
      rw [mem_ite_nil] at hp2
      obtain ⟨hnv, hp3⟩ := hp2
      obtain ⟨p', hp', rfl⟩ := List.mem_map.mp hp3
      have hnv' : m ∉ (cur :: visited) := fun h => hnv (List.elem_iff.mpr h)
      obtain ⟨ih1, ih2, ih3, ih4, ih5, ih6⟩ := ih m (cur :: visited) p' hnv' hp'
      obtain ⟨hd', tl', rfl⟩ : ∃ h t, p' = h :: t := by
        cases p' with
        | nil => simp at ih1
        | cons a b => exact ⟨a, b, rfl⟩
      have ha : m = hd' := by
        have := ih1
        simp at this
        exact this.symm
      subst ha
      refine ⟨rfl, ?_, ?_, ?_, ?_, ?_⟩
      · rw [List.getLast?_cons_cons]
        exact ih2
      · rw [List.chain'_cons]
        exact ⟨((mem_neighbors G cur m).mp hm).2, ih3⟩
      · rw [List.nodup_cons]
        refine ⟨?_, ih4⟩
        intro hcur
        exact (ih5 cur hcur) (List.mem_cons_self _ _)
      · intro x hx
        rcases List.mem_cons.mp hx with rfl | hx
        · exact hcv
        · exact fun hvx => (ih5 x hx) (List.mem_cons_of_mem _ hvx)
      · intro x hx
        rcases List.mem_cons.mp hx with rfl | hx
        · exact Or.inl rfl
        · rcases ih6 x hx with hxm | h
          · rw [hxm]
            exact Or.inr ((mem_neighbors G cur m).mp hm).1
          · exact Or.inr h

theorem mem_allShortestPaths {G : Graph} {u w : Nat} {p : List Nat}
    (h : p ∈ allShortestPaths G u w) :
    p.head? = some u ∧ p.getLast? = some w ∧
    List.Chain' (fun a b => G.hasEdge a b = true) p ∧ p.Nodup ∧
    (∀ x ∈ p, x = u ∨ x ∈ G.nodes) := by
  unfold allShortestPaths at h
  have hmem := (List.mem_filter.mp h).1
  obtain ⟨h1, h2, h3, h4, _, h6⟩ :=
    simplePathsAux_sound G w (G.nodes.length + 1) u [] p (by simp) hmem
  exact ⟨h1, h2, h3, h4, h6⟩

theorem hasEdge_symm_true {G : Graph} {u v : Nat}
    (h : G.hasEdge u v = true) : G.hasEdge v u = true :=
  (hasEdge_symm G v u).trans h

theorem perNodeCycles_extract {G : Graph} {v : Nat} {c : List Nat}
    (h : c ∈ perNodeCycles G v) :
    2 ≤ (G.neighbors v).length ∧
    ∃ q ∈ pairsOf (G.neighbors v),
      (G.hasEdge q.1 q.2 = true ∧ c = sortNodes [v, q.1, q.2]) ∨
      (G.hasEdge q.1 q.2 = false ∧
        ∃ p ∈ allShortestPaths (removeNode G v) q.1 q.2,
          c = sortNodes (v :: p)) := by
  unfold perNodeCycles at h
  by_cases hlen : (G.neighbors v).length < 2
  · rw [if_pos hlen] at h
    simp at h
  · rw [if_neg hlen] at h
    obtain ⟨q, hq, hbody⟩ := List.mem_flatMap.mp h
    refine ⟨by omega, q, hq, ?_⟩
    by_cases he : G.hasEdge q.1 q.2 = true
    · rw [if_pos he, List.mem_singleton] at hbody
      exact Or.inl ⟨he, hbody⟩
    · rw [if_neg he] at hbody
      obtain ⟨p, hp, hcp⟩ := List.mem_map.mp hbody
      exact Or.inr ⟨Bool.not_eq_true _ |>.mp he, p, hp, hcp.symm⟩

theorem mem_perNodeCycles_degree (G : Graph) (hWF : G.WF) (v : Nat)
    (hv : v ∈ G.nodes) {c : List Nat} (hc : c ∈ perNodeCycles G v) :
    ∀ x ∈ c, 2 ≤ G.degree x := by
  obtain ⟨hlen, q, hq, hcase⟩ := perNodeCycles_extract hc
  have hndn := neighbors_nodup hWF v
  have humem : q.1 ∈ G.neighbors v := (pairsOf_mem hq).1
  have hwmem : q.2 ∈ G.neighbors v := (pairsOf_mem hq).2
  have hune : q.1 ≠ q.2 := pairsOf_ne hndn hq
  have hEvu : G.hasEdge v q.1 = true := ((mem_neighbors G v q.1).mp humem).2
  have hEvw : G.hasEdge v q.2 = true := ((mem_neighbors G v q.2).mp hwmem).2
  have hun : q.1 ∈ G.nodes := ((mem_neighbors G v q.1).mp humem).1
  have hwn : q.2 ∈ G.nodes := ((mem_neighbors G v q.2).mp hwmem).1
  have hvu : v ≠ q.1 := ne_of_hasEdge hWF hEvu
  have hvw : v ≠ q.2 := ne_of_hasEdge hWF hEvw
  have hdegv : 2 ≤ G.degree v := by
    unfold Graph.degree
    omega
  intro x hx
  rcases hcase with ⟨he, rfl⟩ | ⟨he, p, hp, rfl⟩
  · rw [mem_sortNodes] at hx
    rcases List.mem_cons.mp hx with rfl | hx
    · exact hdegv
    rcases List.mem_cons.mp hx with rfl | hx
    · exact two_le_degree G hvw hv hwn (hasEdge_symm_true hEvu) he
    rcases List.mem_cons.mp hx with rfl | hx
    · exact two_le_degree G hvu hv hun (hasEdge_symm_true hEvw)
        (hasEdge_symm_true he)
    · simp at hx
  · obtain ⟨hh, hl, hch, hndp, hmem'⟩ := mem_allShortestPaths hp
    have hpne : ∀ y ∈ p, y ≠ v := by
      intro y hy
      rcases hmem' y hy with rfl | hyn
      · exact Ne.symm hvu
      · exact ((mem_removeNode_nodes G v y).mp hyn).2
    have hpnodes : ∀ y ∈ p, y ∈ G.nodes := by
      intro y hy
      rcases hmem' y hy with rfl | hyn
      · exact hun
      · exact ((mem_removeNode_nodes G v y).mp hyn).1
    have hchain : ∀ (i : Nat) (hi : i < p.length - 1),
        G.hasEdge (p.get ⟨i, by omega⟩) (p.get ⟨i + 1, by omega⟩) = true := by
      intro i hi
      exact hasEdge_removeNode (List.chain'_iff_get.mp hch i hi)
    have hp0 : ∃ t, p = q.1 :: t := by
      cases p with
      | nil => simp at hh
      | cons a t =>
        have : a = q.1 := by simpa using hh
        exact ⟨t, by rw [this]⟩
    have hplen1 : 1 ≤ p.length := by
      obtain ⟨t, rfl⟩ := hp0
      simp
    have hlast : p.get ⟨p.length - 1, by omega⟩ = q.2 := by
      rw [List.getLast?_eq_getElem?] at hl
      have hlt : p.length - 1 < p.length := by omega
      rw [List.getElem?_eq_getElem hlt] at hl
      have := Option.some.inj hl
      rw [List.get_eq_getElem]
      exact this
    have hplen2 : 2 ≤ p.length := by
      by_contra hcon
      have h1 : p.length = 1 := by omega
      have h0 : p.get ⟨0, by omega⟩ = q.1 := by
        obtain ⟨t, rfl⟩ := hp0
        rfl
      have hfin : (⟨p.length - 1, by omega⟩ : Fin p.length)
          = ⟨0, by omega⟩ := by
        apply Fin.ext
        simp only
        omega
      rw [hfin] at hlast
      exact hune (h0.symm.trans hlast)
    rw [mem_sortNodes] at hx
    rcases List.mem_cons.mp hx with rfl | hxp
    · exact hdegv
    obtain ⟨⟨k, hk⟩, hxk⟩ := List.mem_iff_get.mp hxp
    by_cases hk0 : k = 0
    · subst hk0
      have hx1 : x = q.1 := by
        obtain ⟨t, rfl⟩ := hp0
        exact hxk.symm
      have h1lt : (1 : Nat) < p.length := by omega
      have hE1 : G.hasEdge x (p.get ⟨1, h1lt⟩) = true := by
        rw [← hxk]
        exact hchain 0 (by omega)
      have hne1 : v ≠ p.get ⟨1, h1lt⟩ :=
        Ne.symm (hpne _ (List.get_mem p 1 h1lt))
      exact two_le_degree G hne1 hv (hpnodes _ (List.get_mem p 1 h1lt))
        (by rw [hx1]; exact hasEdge_symm_true hEvu) hE1
    · by_cases hklast : k = p.length - 1
      · have hx2 : x = q.2 := by
          rw [← hxk]
          subst hklast
          exact hlast
        have hkm1 : k - 1 < p.length - 1 := by omega
        have hEk : G.hasEdge (p.get ⟨k - 1, by omega⟩) x = true := by
          rw [← hxk]
          have := hchain (k - 1) hkm1
          have hofk : k - 1 + 1 = k := by omega
          simpa [hofk] using this
        have hnekm : v ≠ p.get ⟨k - 1, by omega⟩ :=
          Ne.symm (hpne _ (List.get_mem p (k - 1) (by omega)))
        exact two_le_degree G hnekm hv
          (hpnodes _ (List.get_mem p (k - 1) (by omega)))
          (by rw [hx2]; exact hasEdge_symm_true hEvw)
          (hasEdge_symm_true hEk)
      · have hkm1 : k - 1 < p.length - 1 := by omega
        have hkp1 : k + 1 < p.length := by omega
        have hEleft : G.hasEdge (p.get ⟨k - 1, by omega⟩) x = true := by
          rw [← hxk]
          have := hchain (k - 1) hkm1
          have hofk : k - 1 + 1 = k := by omega
          simpa [hofk] using this
        have hEright : G.hasEdge x (p.get ⟨k + 1, hkp1⟩) = true := by
          rw [← hxk]
          exact hchain k (by omega)
        have hnelr : p.get ⟨k - 1, by omega⟩ ≠ p.get ⟨k + 1, hkp1⟩ := by
          intro hcon
          have := (hndp.get_inj_iff).mp hcon
          rw [Fin.mk.injEq] at this
          omega
        exact two_le_degree G hnelr
          (hpnodes _ (List.get_mem p (k - 1) (by omega)))
          (hpnodes _ (List.get_mem p (k + 1) hkp1))
          (hasEdge_symm_true hEleft) hEright

theorem recordedCycles_member_degree (G : Graph) (hWF : G.WF) :
    ∀ c ∈ recordedCycles G, ∀ x ∈ c, 2 ≤ G.degree x := by
  intro c hc x hx
  obtain ⟨v, hvn, hcv⟩ := (mem_recordedCycles G c).mp hc
  exact mem_perNodeCycles_degree G hWF v hvn hcv x hx

/-- Claim C6: a node of degree less than 2 appears in no cycle recorded by the
Cycle Ratio engine (it is skipped by the per-node loop and no other node's
iteration can place it on a triangle or a connecting path), so its recorded
cycle count is zero and its Cycle Ratio score is exactly 0. -/
theorem cycleRatio_score_degree_lt_two (G : Graph) (hWF : G.WF) (i : Nat)
    (hdeg : G.degree i < 2) :
    (∀ c ∈ recordedCycles G, i ∉ c) ∧ rank_cycle_ratio_base G i = 0 := by
  have hnot : ∀ c ∈ recordedCycles G, i ∉ c := by
    intro c hc hic
    have := recordedCycles_member_degree G hWF c hc i hic
    omega
  refine ⟨hnot, ?_⟩
  unfold rank_cycle_ratio_base cycleRatioScore
  have hcm : cycle_map (recordedCycles G) i = [] := by
    unfold cycle_map
    rw [List.flatMap_eq_nil_iff]
    intro c hc
    have hfil : c.filter (fun n => n = i) = [] := by
      rw [List.filter_eq_nil_iff]
      intro n hn
      simp only [decide_eq_true_eq]
      intro hni
      exact (hnot c hc) (hni ▸ hn)
    rw [hfil]
    rfl
  rw [hcm]
  simp

theorem cycleRatio_score_degree_lt_two_witness :
    (Graph.WF ⟨false, [0, 1, 2], [(0, 1), (1, 2)]⟩) ∧
    (Graph.degree ⟨false, [0, 1, 2], [(0, 1), (1, 2)]⟩ 0 < 2) ∧
    rank_cycle_ratio_base ⟨false, [0, 1, 2], [(0, 1), (1, 2)]⟩ 0 = 0 :=
  ⟨by decide, by decide,
    (cycleRatio_score_degree_lt_two ⟨false, [0, 1, 2], [(0, 1), (1, 2)]⟩
      (by decide) 0 (by decide)).2⟩

/-! ### Acyclic graphs -/

/-- Claim C8: on a triangle-free, square-free undirected graph, `crimp` succeeds
with both cycle lists empty and gives every node a score equal to its
degree. -/
theorem crimp_acyclic (G : Graph) (hWF : G.WF) (hdir : G.directed = false)
    (hT : ∀ u ∈ G.nodes, ∀ v ∈ G.nodes, ∀ w ∈ G.nodes,
      ¬(u < v ∧ v < w ∧ G.hasEdge u v = true ∧ G.hasEdge u w = true ∧
        G.hasEdge v w = true))
    (hS : ∀ u ∈ G.nodes, ∀ v ∈ G.nodes, ∀ a ∈ G.nodes, ∀ b ∈ G.nodes,
      ¬(u ≠ v ∧ a ≠ b ∧ G.hasEdge u v = false ∧ G.hasEdge a b = false ∧
        G.hasEdge u a = true ∧ G.hasEdge v a = true ∧
        G.hasEdge u b = true ∧ G.hasEdge v b = true)) :
    ∃ r, crimp G = .ok r ∧ r.cycles3 = [] ∧ r.cycles4 = [] ∧
      ∀ i, r.r_imp i = (G.degree i : ℚ) := by
  have h3 : find_chordless_triangles G = [] := by
    rw [List.eq_nil_iff_forall_not_mem]
    intro t ht
    obtain ⟨u, v, w, hu, hv, hw, h1, h2, e1, e2, e3, _⟩ :=
      (mem_find_chordless_triangles G t).mp ht
    exact hT u hu v hv w hw ⟨h1, h2, e1, e2, e3⟩
  have h4 : find_chordless_4cycles G = [] := by
    rw [List.eq_nil_iff_forall_not_mem]
    intro s hs
    obtain ⟨u, v, a, b, hu, hv, ha, hb, hne1, hne2, e1, e2, e3, e4, e5, e6, _⟩ :=
      (mem_find_chordless_4cycles G hWF s).mp hs
    exact hS u hu v hv a ha b hb ⟨hne1, hne2, e1, e2, e3, e4, e5, e6⟩
  simp only [crimp, hdir, Bool.false_eq_true, if_false, h3, h4, List.nil_append]
  refine ⟨_, rfl, rfl, rfl, ?_⟩
  intro i
  have hcii : build_cycle_counts_cii [] i = 0 := rfl
  show compute_crimp_scores G (build_cycle_counts_cii [])
    (build_cycle_counts_cij []) (compute_k_t G (build_cycle_counts_cij []))
    true i = (G.degree i : ℚ)
  unfold compute_crimp_scores
  rw [if_pos hcii]
  congr 1
  unfold compute_k_t
  have hfil : ((G.neighbors i).filter
      (fun j => decide (0 < build_cycle_counts_cij [] (_pair i j)))).length = 0 := by
    rw [List.length_eq_zero, List.filter_eq_nil_iff]
    intro j _
    simp [build_cycle_counts_cij]
  rw [hfil]
  omega

theorem crimp_acyclic_witness :
    (Graph.WF ⟨false, [0, 1, 2], [(0, 1), (1, 2)]⟩) ∧
    (Graph.directed ⟨false, [0, 1, 2], [(0, 1), (1, 2)]⟩ = false) ∧
    (∃ r, crimp ⟨false, [0, 1, 2], [(0, 1), (1, 2)]⟩ = .ok r ∧
      r.cycles3 = [] ∧ r.cycles4 = [] ∧
      ∀ i, r.r_imp i = ((Graph.degree ⟨false, [0, 1, 2], [(0, 1), (1, 2)]⟩ i : ℚ))) :=
  ⟨by decide, rfl,
    crimp_acyclic ⟨false, [0, 1, 2], [(0, 1), (1, 2)]⟩ (by decide) rfl
      (by decide) (by decide)⟩

/-! ### Claim about directed-input rejection -/

/-- Claim C5: `crimp` fails with the configuration error on every directed input,
before any enumeration or scoring (the error result carries no other
data), and succeeds on every undirected input — the directedness check is
the only validation failure. -/
theorem crimp_directed_check (G : Graph) :
    (G.directed = true →
      crimp G = .error "This implementation expects an undirected graph.") ∧
    (G.directed = false → ∃ r, crimp G = .ok r) := by
  unfold crimp
  constructor
  · intro h
    rw [if_pos h]
  · intro h
    rw [if_neg (by simp [h])]
    exact ⟨_, rfl⟩

theorem crimp_directed_check_witness :
    (Graph.directed ⟨true, [0, 1], [(0, 1)]⟩ = true) ∧
    crimp ⟨true, [0, 1], [(0, 1)]⟩
      = .error "This implementation expects an undirected graph." :=
  ⟨rfl, (crimp_directed_check ⟨true, [0, 1], [(0, 1)]⟩).1 rfl⟩

end CrimpProject
